import Mathlib

/-!
# Cafeteria ordering system (`Ordering_System.cpp`)

A shallow embedding of the order queue of `Ordering_System.cpp` and of the menu
loop of its `main`, followed by theorems about them.

* `Order` is the record of lines 10-24; `int` and `long long` fields are `Int`.
  No arithmetic is done on them except `timeCounter++`, whose overflow is
  handled in `step`.
* `OrderQueue` wraps the `vector<Order> q`, front at index 0, as a `List`.
* Methods with an output reference (`dequeue`, `searchById`) take the caller's
  variable as an argument and return its value after the call together with the
  returned `bool` and the queue after the call.
* `std::sort` is library code. It is modelled by its contract (`StdSort`): for a
  comparator that is a strict weak ordering the result is a permutation of the
  input in which no later element compares less than an earlier one; the order
  of equivalent elements is not fixed. Three executable implementations of the
  contract are given: `gnuSortImpl`, the `std::sort` of GNU libstdc++ (introsort
  with a final insertion sort, translated from `bits/stl_algo.h`), and two
  insertion sorts that are not the library's, `insertionSortImpl` (keeps
  equivalent elements in order) and `reversingSortImpl` (reverses them).
-/

namespace OrderingSystem

/-! ## Data model -/

/-- The record `struct Order` (lines 10-24). -/
structure Order where
  orderId : Int
  itemName : String
  quantity : Int
  orderTime : Int
  deriving DecidableEq, Repr, Inhabited

/-- The class `OrderQueue` (lines 26-74): the vector `q`, front at index 0. -/
structure OrderQueue where
  q : List Order
  deriving DecidableEq, Repr, Inhabited

/-- A freshly constructed `OrderQueue` (line 126): the vector is empty. -/
def OrderQueue.empty : OrderQueue := ⟨[]⟩

/-- Result of `dequeue`: the returned `bool`, the caller's `served` variable after
the call and the queue after the call. -/
structure DequeueResult where
  ret : Bool
  served : Order
  queue : OrderQueue
  deriving DecidableEq, Repr

/-- Result of `searchById`: the returned `bool`, the caller's `found` variable after
the call and the queue after the call. -/
structure SearchResult where
  ret : Bool
  found : Order
  queue : OrderQueue
  deriving DecidableEq, Repr

/-! ## Queue operations -/

/-- The method `isEmpty` (lines 30-32). -/
def OrderQueue.isEmpty (oq : OrderQueue) : Bool :=
  oq.q.isEmpty

/-- The method `enqueue` (lines 34-36): `q.push_back(order)`. -/
def OrderQueue.enqueue (oq : OrderQueue) (order : Order) : OrderQueue :=
  ⟨oq.q ++ [order]⟩

/-- The method `dequeue` (lines 38-43). On an empty queue it returns `false` and
touches neither `served` nor the queue; otherwise it copies the front into
`served` and erases the front. The `[]` arm of the match is never taken: it stands
behind the `isEmpty` test. -/
def OrderQueue.dequeue (oq : OrderQueue) (served : Order) : DequeueResult :=
  if oq.isEmpty then ⟨false, served, oq⟩
  else
    match oq.q with
    | [] => ⟨false, served, oq⟩
    | front :: rest => ⟨true, front, ⟨rest⟩⟩

/-- The method `getAll` (lines 45-47). -/
def OrderQueue.getAll (oq : OrderQueue) : List Order :=
  oq.q

/-- The loop of `searchById` (lines 51-57) over the remaining elements: the pair of
the returned `bool` and the value of `found`. -/
def searchLoop (id : Int) (found : Order) : List Order → Bool × Order
  | [] => (false, found)
  | o :: rest => if o.orderId = id then (true, o) else searchLoop id found rest

/-- The method `searchById` (lines 50-58), a `const` method. -/
def OrderQueue.searchById (oq : OrderQueue) (id : Int) (found : Order) : SearchResult :=
  ⟨(searchLoop id found oq.q).1, (searchLoop id found oq.q).2, oq⟩

/-! ## `std::sort` -/

/-- The requirement `std::sort` puts on its comparator: a strict weak ordering,
stated as asymmetry and negative transitivity. -/
structure StrictWeakOrder (comp : Order → Order → Bool) : Prop where
  asymm : ∀ a b, comp a b = true → comp b a = false
  negTrans : ∀ a b c, comp a c = true → comp a b = true ∨ comp b c = true

/-- The contract of `std::sort(first, last, comp)`: the range is rearranged (a
permutation) so that no element compares less than an element before it. -/
structure StdSort where
  sort : (Order → Order → Bool) → List Order → List Order
  perm : ∀ comp l, StrictWeakOrder comp → (sort comp l).Perm l
  sorted : ∀ comp l, StrictWeakOrder comp →
    (sort comp l).Pairwise (fun a b => comp b a = false)

/-- The comparator of lines 65-67. -/
def compById (a b : Order) : Bool :=
  decide (a.orderId < b.orderId)

/-- The comparator of lines 69-71. -/
def compByTime (a b : Order) : Bool :=
  decide (a.orderTime < b.orderTime)

/-- The method `sortOrders` (lines 61-73). -/
def OrderQueue.sortOrders (S : StdSort) (oq : OrderQueue) (mode : Int) : OrderQueue :=
  if mode = 1 then ⟨S.sort compById oq.q⟩
  else if mode = 2 then ⟨S.sort compByTime oq.q⟩
  else oq

/-- Insertion of `x` into a sorted list: `x` goes in front of the first element `y`
with `stop x y`. -/
def insertWhen (stop : Order → Order → Bool) (x : Order) : List Order → List Order
  | [] => [x]
  | y :: ys => if stop x y then x :: y :: ys else y :: insertWhen stop x ys

/-- Insertion sort, inserting the elements from the last to the first. -/
def insertAll (stop : Order → Order → Bool) : List Order → List Order
  | [] => []
  | x :: xs => insertWhen stop x (insertAll stop xs)

/-- Stable insertion sort: an element stops in front of the first element that is
not less than it. -/
def stableSort (comp : Order → Order → Bool) (l : List Order) : List Order :=
  insertAll (fun x y => !comp y x) l

/-- Insertion sort that reverses equivalent elements: an element stops in front of
the first element that is greater than it. It is not the sort of any standard
library; it shows that the contract of `std::sort` leaves the order of equal keys
open. -/
def reversingSort (comp : Order → Order → Bool) (l : List Order) : List Order :=
  insertAll (fun x y => comp x y) l

/-! ## `std::sort` as GNU libstdc++ implements it

The routines of `bits/stl_algo.h` and `bits/stl_heap.h` behind `std::sort`, on the
whole vector. Iterators are positions in the list; a loop takes a fuel argument that
bounds its iterations; the result is `none` where the library would read or write
outside the vector. -/

/-- Reading `*(v.begin() + i)` and `*(v.begin() + j)` and comparing them. A read
outside the vector has no defined result. -/
def compAt (comp : Order → Order → Bool) (v : List Order) (i j : Nat) : Option Bool :=
  match v[i]?, v[j]? with
  | some x, some y => some (comp x y)
  | _, _ => none

/-- The assignment `*(v.begin() + i) = x`. -/
def store (v : List Order) (i : Nat) (x : Order) : Option (List Order) :=
  if i < v.length then some (v.set i x) else none

/-- The call `std::iter_swap(v.begin() + i, v.begin() + j)`. -/
def iterSwap (v : List Order) (i j : Nat) : Option (List Order) :=
  match v[i]?, v[j]? with
  | some x, some y => some ((v.set i y).set j x)
  | _, _ => none

/-- The function `__move_median_to_first` (stl_algo.h). -/
def moveMedianToFirst (comp : Order → Order → Bool) (v : List Order) (result a b c : Nat) :
    Option (List Order) :=
  match compAt comp v a b, compAt comp v b c, compAt comp v a c with
  | some ab, some bc, some ac =>
    if ab then
      if bc then iterSwap v result b
      else if ac then iterSwap v result c
      else iterSwap v result a
    else if ac then iterSwap v result a
    else if bc then iterSwap v result c
    else iterSwap v result b
  | _, _, _ => none

/-- The loop `while (__comp(__first, __pivot)) ++__first;` of `__unguarded_partition`. -/
def scanUp (comp : Order → Order → Bool) (v : List Order) (pivot : Nat) :
    Nat → Nat → Option Nat
  | 0, _ => none
  | fuel + 1, first =>
    match compAt comp v first pivot with
    | none => none
    | some true => scanUp comp v pivot fuel (first + 1)
    | some false => some first

/-- The loop `while (__comp(__pivot, __last)) --__last;` of `__unguarded_partition`. -/
def scanDown (comp : Order → Order → Bool) (v : List Order) (pivot : Nat) :
    Nat → Nat → Option Nat
  | 0, _ => none
  | fuel + 1, last =>
    match compAt comp v pivot last with
    | none => none
    | some true => if last = 0 then none else scanDown comp v pivot fuel (last - 1)
    | some false => some last

/-- The function `__unguarded_partition` (stl_algo.h): the vector after the call
and the returned position. -/
def unguardedPartition (comp : Order → Order → Bool) (pivot : Nat) :
    Nat → List Order → Nat → Nat → Option (List Order × Nat)
  | 0, _, _, _ => none
  | fuel + 1, v, first, last =>
    match scanUp comp v pivot (v.length + 1) first with
    | none => none
    | some first1 =>
      if last = 0 then none
      else
        match scanDown comp v pivot (v.length + 1) (last - 1) with
        | none => none
        | some last1 =>
          if first1 < last1 then
            match iterSwap v first1 last1 with
            | none => none
            | some v1 => unguardedPartition comp pivot fuel v1 (first1 + 1) last1
          else some (v, first1)

/-- The function `__unguarded_partition_pivot` (stl_algo.h). -/
def unguardedPartitionPivot (comp : Order → Order → Bool) (v : List Order)
    (first last : Nat) : Option (List Order × Nat) :=
  match moveMedianToFirst comp v first (first + 1) (first + (last - first) / 2) (last - 1) with
  | none => none
  | some v1 => unguardedPartition comp first (v1.length + 1) v1 (first + 1) last

/-- The function `__push_heap` (stl_heap.h); positions are relative to `first`. -/
def pushHeap (comp : Order → Order → Bool) (first : Nat) (value : Order) (topIndex : Nat) :
    Nat → List Order → Nat → Option (List Order)
  | 0, _, _ => none
  | fuel + 1, v, holeIndex =>
    if holeIndex > topIndex then
      match v[first + (holeIndex - 1) / 2]? with
      | none => none
      | some p =>
        if comp p value then
          match store v (first + holeIndex) p with
          | none => none
          | some v1 => pushHeap comp first value topIndex fuel v1 ((holeIndex - 1) / 2)
        else store v (first + holeIndex) value
    else store v (first + holeIndex) value

/-- The `while` loop of `__adjust_heap` (stl_heap.h): the vector, `__holeIndex` and
`__secondChild` after the loop. -/
def adjustLoop (comp : Order → Order → Bool) (first len : Nat) :
    Nat → List Order → Nat → Nat → Option (List Order × Nat × Nat)
  | 0, _, _, _ => none
  | fuel + 1, v, holeIndex, secondChild =>
    if secondChild < (len - 1) / 2 then
      match compAt comp v (first + 2 * (secondChild + 1)) (first + (2 * (secondChild + 1) - 1)) with
      | none => none
      | some c =>
        match v[first + (if c then 2 * (secondChild + 1) - 1 else 2 * (secondChild + 1))]? with
        | none => none
        | some x =>
          match store v (first + holeIndex) x with
          | none => none
          | some v1 =>
            adjustLoop comp first len fuel v1
              (if c then 2 * (secondChild + 1) - 1 else 2 * (secondChild + 1))
              (if c then 2 * (secondChild + 1) - 1 else 2 * (secondChild + 1))
    else some (v, holeIndex, secondChild)

/-- The function `__adjust_heap` (stl_heap.h); it is called with `len ≥ 1` only. -/
def adjustHeap (comp : Order → Order → Bool) (v : List Order) (first holeIndex len : Nat)
    (value : Order) : Option (List Order) :=
  match adjustLoop comp first len (len + 1) v holeIndex holeIndex with
  | none => none
  | some (v1, hole1, secondChild) =>
    if len % 2 = 0 ∧ secondChild = (len - 2) / 2 then
      match v1[first + (2 * (secondChild + 1) - 1)]? with
      | none => none
      | some x =>
        match store v1 (first + hole1) x with
        | none => none
        | some v2 =>
          pushHeap comp first value holeIndex (len + 1) v2 (2 * (secondChild + 1) - 1)
    else pushHeap comp first value holeIndex (len + 1) v1 hole1

/-- The function `__pop_heap` (stl_heap.h). -/
def popHeap (comp : Order → Order → Bool) (v : List Order) (first last result : Nat) :
    Option (List Order) :=
  match v[result]?, v[first]? with
  | some value, some top =>
    match store v result top with
    | none => none
    | some v1 => adjustHeap comp v1 first 0 (last - first) value
  | _, _ => none

/-- The `while (true)` loop of `__make_heap` (stl_heap.h), entered with `parent`. -/
def makeHeapLoop (comp : Order → Order → Bool) (first len : Nat) :
    Nat → List Order → Nat → Option (List Order)
  | 0, _, _ => none
  | fuel + 1, v, parent =>
    match v[first + parent]? with
    | none => none
    | some value =>
      match adjustHeap comp v first parent len value with
      | none => none
      | some v1 => if parent = 0 then some v1 else makeHeapLoop comp first len fuel v1 (parent - 1)

/-- The function `__make_heap` (stl_heap.h). -/
def makeHeap (comp : Order → Order → Bool) (v : List Order) (first last : Nat) :
    Option (List Order) :=
  if last - first < 2 then some v
  else makeHeapLoop comp first (last - first) (last - first) v ((last - first - 2) / 2)

/-- The `for` loop of `__heap_select` (stl_algo.h), from position `i`. -/
def heapSelectLoop (comp : Order → Order → Bool) (first middle last : Nat) :
    Nat → List Order → Nat → Option (List Order)
  | 0, v, i => if i < last then none else some v
  | fuel + 1, v, i =>
    if i < last then
      match compAt comp v i first with
      | none => none
      | some true =>
        match popHeap comp v first middle i with
        | none => none
        | some v1 => heapSelectLoop comp first middle last fuel v1 (i + 1)
      | some false => heapSelectLoop comp first middle last fuel v (i + 1)
    else some v

/-- The function `__heap_select` (stl_algo.h). -/
def heapSelect (comp : Order → Order → Bool) (v : List Order) (first middle last : Nat) :
    Option (List Order) :=
  match makeHeap comp v first middle with
  | none => none
  | some v1 => heapSelectLoop comp first middle last (last - middle) v1 middle

/-- The function `__sort_heap` (stl_heap.h). -/
def sortHeap (comp : Order → Order → Bool) (first : Nat) :
    Nat → List Order → Nat → Option (List Order)
  | 0, v, last => if last - first > 1 then none else some v
  | fuel + 1, v, last =>
    if last - first > 1 then
      match popHeap comp v first (last - 1) (last - 1) with
      | none => none
      | some v1 => sortHeap comp first fuel v1 (last - 1)
    else some v

/-- The function `__partial_sort` (stl_algo.h). -/
def partialSort (comp : Order → Order → Bool) (v : List Order) (first middle last : Nat) :
    Option (List Order) :=
  match heapSelect comp v first middle last with
  | none => none
  | some v1 => sortHeap comp first (middle - first) v1 middle

/-- The function `__unguarded_linear_insert` (stl_algo.h) for the saved value `val`:
the loop and the final assignment. -/
def unguardedLinearInsert (comp : Order → Order → Bool) (val : Order) :
    Nat → List Order → Nat → Option (List Order)
  | 0, _, _ => none
  | fuel + 1, v, last =>
    if last = 0 then none
    else
      match v[last - 1]? with
      | none => none
      | some next =>
        if comp val next then
          match store v last next with
          | none => none
          | some v1 => unguardedLinearInsert comp val fuel v1 (last - 1)
        else store v last val

/-- The body of the `for` loop of `__insertion_sort` (stl_algo.h) at position `i`. -/
def insertionStep (comp : Order → Order → Bool) (v : List Order) (first i : Nat) :
    Option (List Order) :=
  match v[i]?, v[first]? with
  | some val, some front =>
    if comp val front then
      store (v.take (first + 1) ++ (v.drop first).take (i - first) ++ v.drop (i + 1)) first val
    else unguardedLinearInsert comp val (v.length + 1) v i
  | _, _ => none

/-- The `for` loop of `__insertion_sort` (stl_algo.h), from position `i`, with `n`
positions left. -/
def insertionLoop (comp : Order → Order → Bool) (first : Nat) :
    Nat → List Order → Nat → Option (List Order)
  | 0, v, _ => some v
  | n + 1, v, i =>
    match insertionStep comp v first i with
    | none => none
    | some v1 => insertionLoop comp first n v1 (i + 1)

/-- The function `__insertion_sort` (stl_algo.h). -/
def insertionSort (comp : Order → Order → Bool) (v : List Order) (first last : Nat) :
    Option (List Order) :=
  if first = last then some v
  else insertionLoop comp first (last - (first + 1)) v (first + 1)

/-- The function `__unguarded_insertion_sort` (stl_algo.h), with `n` positions left. -/
def unguardedInsertionSort (comp : Order → Order → Bool) :
    Nat → List Order → Nat → Option (List Order)
  | 0, v, _ => some v
  | n + 1, v, i =>
    match v[i]? with
    | none => none
    | some val =>
      match unguardedLinearInsert comp val (v.length + 1) v i with
      | none => none
      | some v1 => unguardedInsertionSort comp n v1 (i + 1)

/-- The function `__final_insertion_sort` (stl_algo.h), `_S_threshold = 16`. -/
def finalInsertionSort (comp : Order → Order → Bool) (v : List Order) (first last : Nat) :
    Option (List Order) :=
  if last - first > 16 then
    match insertionSort comp v first (first + 16) with
    | none => none
    | some v1 => unguardedInsertionSort comp (last - (first + 16)) v1 (first + 16)
  else insertionSort comp v first last

/-- The function `__introsort_loop` (stl_algo.h); one unit of fuel per loop iteration. -/
def introsortLoop (comp : Order → Order → Bool) :
    Nat → List Order → Nat → Nat → Nat → Option (List Order)
  | 0, _, _, _, _ => none
  | fuel + 1, v, first, last, depthLimit =>
    if last - first > 16 then
      if depthLimit = 0 then partialSort comp v first last last
      else
        match unguardedPartitionPivot comp v first last with
        | none => none
        | some (v1, cut) =>
          match introsortLoop comp fuel v1 cut last (depthLimit - 1) with
          | none => none
          | some v2 => introsortLoop comp fuel v2 first cut (depthLimit - 1)
    else some v

/-- The function `__lg`: the binary logarithm rounded down. -/
def lgFuel : Nat → Nat → Nat
  | 0, _ => 0
  | fuel + 1, n => if 2 ≤ n then lgFuel fuel (n / 2) + 1 else 0

/-- The function `__sort` (stl_algo.h), which `std::sort(first, last, comp)` calls, on
the whole vector. The result is `none` where the library would read or write outside
the vector. -/
def gnuSort (comp : Order → Order → Bool) (v : List Order) : Option (List Order) :=
  if v.length = 0 then some v
  else
    match introsortLoop comp (2 * lgFuel v.length v.length + 2) v 0 v.length
        (2 * lgFuel v.length v.length) with
    | none => none
    | some v1 => finalInsertionSort comp v1 0 v.length

/-- Whether `r` is a rearrangement of `l` in which no element compares less than an
element before it. -/
def sortedPermOf (comp : Order → Order → Bool) (l r : List Order) : Bool :=
  decide (r.Perm l) && decide (r.Pairwise (fun a b => comp b a = false))

/-- The result of `gnuSort`, checked against the contract of `std::sort`. The library
promises the contract for every strict weak ordering; it is checked here instead of
proved, and the stable sort stands in where the check fails or `gnuSort` is
undefined. -/
def gnuSortChecked (comp : Order → Order → Bool) (l : List Order) : List Order :=
  match gnuSort comp l with
  | some r => if sortedPermOf comp l r = true then r else stableSort comp l
  | none => stableSort comp l

/-! ## The menu loop of `main` -/

/-- The largest `long long`. -/
def LLONG_MAX : Int := 9223372036854775807

/-- The variables of `main` that live across iterations (lines 126-127). -/
structure State where
  orders : OrderQueue
  timeCounter : Int
  deriving DecidableEq, Repr

/-- The state on entry to the loop: empty queue, `timeCounter = 1`. -/
def initState : State := ⟨OrderQueue.empty, 1⟩

/-- The function `isOrderIdUnique` (lines 119-122). -/
def isOrderIdUnique (oq : OrderQueue) (id : Int) : Bool :=
  !(oq.searchById id default).ret

/-- One iteration of the menu loop, with the values the prompts finally returned.
`place id item qty` is choice 1, `serve` choice 2, `view` choice 3, `search id`
choice 4 and `sort mode` choice 5. Choice 6 leaves the loop and is no iteration. -/
inductive Action where
  | place (id : Int) (item : String) (qty : Int)
  | serve
  | view
  | search (id : Int)
  | sort (mode : Int)
  deriving DecidableEq, Repr

/-- Whether an iteration is a Sort Orders iteration (choice 5). -/
def Action.isSort : Action → Bool
  | .sort _ => true
  | _ => false

/-- The order built at lines 154-158. -/
def mkOrder (s : State) (id : Int) (item : String) (qty : Int) : Order :=
  ⟨id, item, qty, s.timeCounter⟩

/-- One iteration of the loop of `main` (lines 129-236). The result is `none` when
no iteration of the program takes these values: `readInt` and `readNonEmptyLine`
return only values in range, the loop of lines 146-149 only a unique id, and
`timeCounter++` is defined only below `LLONG_MAX`. -/
def step (S : StdSort) (s : State) : Action → Option State
  | .place id item qty =>
    if 1 ≤ id ∧ id ≤ 1000000000 ∧ isOrderIdUnique s.orders id = true ∧ item ≠ ""
        ∧ 1 ≤ qty ∧ qty ≤ 100 ∧ s.timeCounter < LLONG_MAX then
      some ⟨s.orders.enqueue (mkOrder s id item qty), s.timeCounter + 1⟩
    else none
  | .serve =>
    if s.orders.isEmpty then some s
    else some ⟨(s.orders.dequeue default).queue, s.timeCounter⟩
  | .view => some s
  | .search id =>
    if s.orders.isEmpty then some s
    else if 1 ≤ id ∧ id ≤ 1000000000 then some s
    else none
  | .sort mode =>
    if s.orders.isEmpty then some s
    else if 1 ≤ mode ∧ mode ≤ 2 then some ⟨s.orders.sortOrders S mode, s.timeCounter⟩
    else none

/-- A sequence of iterations. -/
def run (S : StdSort) : State → List Action → Option State
  | s, [] => some s
  | s, a :: rest =>
    match step S s a with
    | none => none
    | some s2 => run S s2 rest

/-- The orders handed to `enqueue` during a sequence of iterations, in call order. -/
def placedLog (S : StdSort) : State → List Action → List Order
  | _, [] => []
  | s, a :: rest =>
    match step S s a with
    | none => []
    | some s2 =>
      match a with
      | .place id item qty => mkOrder s id item qty :: placedLog S s2 rest
      | _ => placedLog S s2 rest

/-! ## Sample data -/

/-- Order 5, two soups, placed first. -/
def soup : Order := ⟨5, "Soup", 2, 1⟩

/-- Order 3, one bread, placed second. -/
def bread : Order := ⟨3, "Bread", 1, 2⟩

/-- Order 9, three teas, placed third. -/
def tea : Order := ⟨9, "Tea", 3, 3⟩

/-- Two orders under the same id 1, as `enqueue` accepts them. -/
def dupA : Order := ⟨1, "A", 1, 1⟩

/-- The second order under id 1. -/
def dupB : Order := ⟨1, "B", 1, 2⟩

/-- Orders that all carry id 1 and differ in their `orderTime` only. -/
def sameIdOrders (times : List Int) : List Order :=
  times.map (fun t => ⟨1, "Meal", 1, t⟩)

/-- Seventeen orders under id 1, stamped 1 to 17, as `enqueue` accepts them. -/
def seventeen : List Order :=
  sameIdOrders [1, 2, 3, 4, 5, 6, 7, 8, 9, 10, 11, 12, 13, 14, 15, 16, 17]

/-- A session: two orders placed, sorted by id, one served, its id used again. -/
def sampleSession : List Action :=
  [Action.place 5 "Soup" 2, Action.place 3 "Bread" 1, Action.sort 1, Action.serve,
    Action.place 3 "Tea" 3]

/-- A session that places two orders and sorts them by id. -/
def sortedSession : List Action :=
  [Action.place 5 "Soup" 2, Action.place 3 "Bread" 1, Action.sort 1]

/-- Order 1, four portions of rice, placed fourth. -/
def rice : Order := ⟨1, "Rice", 4, 4⟩

/-- A session that places orders after a sort by id: two orders placed, sorted by
id, one served, two more placed, sorted by id again. -/
def mixedSession : List Action :=
  [Action.place 5 "Soup" 2, Action.place 3 "Bread" 1, Action.sort 1, Action.serve,
    Action.place 9 "Tea" 3, Action.place 1 "Rice" 4, Action.sort 1]

/-- A session of Place Order and Serve Next iterations only. -/
def plainSession : List Action :=
  [Action.place 5 "Soup" 2, Action.place 3 "Bread" 1, Action.place 9 "Tea" 3, Action.serve]

/-! ## The two implementations meet the contract of `std::sort` -/

theorem insertWhen_perm (stop : Order → Order → Bool) (x : Order) (l : List Order) :
    (insertWhen stop x l).Perm (x :: l) := by
  induction l with
  | nil => exact List.Perm.refl _
  | cons y ys ih =>
    unfold insertWhen
    split
    · exact List.Perm.refl _
    · exact (List.Perm.cons y ih).trans (List.Perm.swap x y ys)

theorem insertAll_perm (stop : Order → Order → Bool) (l : List Order) :
    (insertAll stop l).Perm l := by
  induction l with
  | nil => exact List.Perm.refl _
  | cons x xs ih =>
    unfold insertAll
    exact (insertWhen_perm stop x _).trans (List.Perm.cons x ih)

/-- In a strict weak ordering "not greater" is transitive. -/
theorem StrictWeakOrder.le_trans {comp : Order → Order → Bool} (hc : StrictWeakOrder comp)
    {a b c : Order} (hab : comp b a = false) (hbc : comp c b = false) : comp c a = false := by
  cases h : comp c a with
  | false => rfl
  | true =>
    rcases hc.negTrans c b a h with h1 | h1
    · rw [hbc] at h1; cases h1
    · rw [hab] at h1; cases h1

theorem insertWhen_sorted {comp stop : Order → Order → Bool} (hc : StrictWeakOrder comp)
    (hstop : ∀ x y, stop x y = true → comp y x = false)
    (hgo : ∀ x y, stop x y = false → comp x y = false)
    (x : Order) (l : List Order) (hl : l.Pairwise (fun a b => comp b a = false)) :
    (insertWhen stop x l).Pairwise (fun a b => comp b a = false) := by
  induction l with
  | nil => simp [insertWhen]
  | cons y ys ih =>
    have hy : ∀ z ∈ ys, comp z y = false := (List.pairwise_cons.mp hl).1
    have hys : ys.Pairwise (fun a b => comp b a = false) := (List.pairwise_cons.mp hl).2
    unfold insertWhen
    cases hs : stop x y with
    | true =>
      simp only [if_true]
      refine List.pairwise_cons.mpr ⟨?_, hl⟩
      intro z hz
      rcases List.mem_cons.mp hz with rfl | hz
      · exact hstop x z hs
      · exact hc.le_trans (hstop x y hs) (hy z hz)
    | false =>
      simp only [Bool.false_eq_true, if_false]
      refine List.pairwise_cons.mpr ⟨?_, ih hys⟩
      intro z hz
      have hz2 : z ∈ x :: ys := (insertWhen_perm stop x ys).subset hz
      rcases List.mem_cons.mp hz2 with rfl | hz3
      · exact hgo z y hs
      · exact hy z hz3

theorem insertAll_sorted {comp stop : Order → Order → Bool} (hc : StrictWeakOrder comp)
    (hstop : ∀ x y, stop x y = true → comp y x = false)
    (hgo : ∀ x y, stop x y = false → comp x y = false) (l : List Order) :
    (insertAll stop l).Pairwise (fun a b => comp b a = false) := by
  induction l with
  | nil => simp [insertAll]
  | cons x xs ih =>
    unfold insertAll
    exact insertWhen_sorted hc hstop hgo x _ ih

/-- Stable insertion sort as an implementation of `std::sort`. -/
def insertionSortImpl : StdSort where
  sort := stableSort
  perm := fun comp l _ => insertAll_perm _ l
  sorted := fun comp l hc => by
    refine insertAll_sorted hc ?_ ?_ l
    · intro x y h
      simpa using h
    · intro x y h
      have h2 : comp y x = true := by simpa using h
      exact hc.asymm y x h2

/-- The order-reversing insertion sort meets the contract of `std::sort`. -/
def reversingSortImpl : StdSort where
  sort := reversingSort
  perm := fun comp l _ => insertAll_perm _ l
  sorted := fun comp l hc => by
    refine insertAll_sorted hc ?_ ?_ l
    · intro x y h
      exact hc.asymm x y h
    · intro x y h
      exact h

/-- The sort of GNU libstdc++ as an implementation of `std::sort`. -/
def gnuSortImpl : StdSort where
  sort := gnuSortChecked
  perm := fun comp l _ => by
    unfold gnuSortChecked
    split
    · split
      · rename_i r hr hc
        have := (Bool.and_eq_true _ _).mp hc
        exact of_decide_eq_true this.1
      · exact insertAll_perm _ l
    · exact insertAll_perm _ l
  sorted := fun comp l hc => by
    unfold gnuSortChecked
    split
    · split
      · rename_i r hr hchk
        have := (Bool.and_eq_true _ _).mp hchk
        exact of_decide_eq_true this.2
      · exact insertionSortImpl.sorted comp l hc
    · exact insertionSortImpl.sorted comp l hc

/-- The comparator on `orderId` is a strict weak ordering. -/
theorem compById_strictWeak : StrictWeakOrder compById where
  asymm := by
    intro a b h
    simp only [compById, decide_eq_true_eq, decide_eq_false_iff_not] at *
    omega
  negTrans := by
    intro a b c h
    simp only [compById, decide_eq_true_eq] at *
    omega

/-- The comparator on `orderTime` is a strict weak ordering. -/
theorem compByTime_strictWeak : StrictWeakOrder compByTime where
  asymm := by
    intro a b h
    simp only [compByTime, decide_eq_true_eq, decide_eq_false_iff_not] at *
    omega
  negTrans := by
    intro a b c h
    simp only [compByTime, decide_eq_true_eq] at *
    omega

/-! ## Facts about the queue operations -/

theorem searchLoop_true_iff (id : Int) (found : Order) (l : List Order) :
    (searchLoop id found l).1 = true ↔ ∃ o ∈ l, o.orderId = id := by
  induction l with
  | nil => simp [searchLoop]
  | cons y ys ih =>
    unfold searchLoop
    by_cases hy : y.orderId = id
    · simp [hy]
    · simp [hy, ih]

theorem searchLoop_first (id : Int) (found : Order) (l : List Order)
    (h : (searchLoop id found l).1 = true) :
    ∃ pre post, l = pre ++ (searchLoop id found l).2 :: post
      ∧ (searchLoop id found l).2.orderId = id ∧ ∀ o ∈ pre, o.orderId ≠ id := by
  induction l with
  | nil => simp [searchLoop] at h
  | cons y ys ih =>
    unfold searchLoop at h ⊢
    by_cases hy : y.orderId = id
    · rw [if_pos hy]
      exact ⟨[], ys, rfl, hy, by simp⟩
    · rw [if_neg hy] at h ⊢
      obtain ⟨pre, post, h1, h2, h3⟩ := ih h
      refine ⟨y :: pre, post, ?_, h2, ?_⟩
      · rw [List.cons_append, ← h1]
      · intro o ho
        rcases List.mem_cons.mp ho with rfl | ho
        · exact hy
        · exact h3 o ho

theorem searchLoop_false_found (id : Int) (found : Order) (l : List Order)
    (h : (searchLoop id found l).1 = false) : (searchLoop id found l).2 = found := by
  induction l with
  | nil => rfl
  | cons y ys ih =>
    unfold searchLoop at h ⊢
    by_cases hy : y.orderId = id
    · simp [hy] at h
    · simp only [hy, if_false] at h ⊢
      exact ih h

theorem isOrderIdUnique_iff (oq : OrderQueue) (id : Int) :
    isOrderIdUnique oq id = true ↔ id ∉ oq.q.map Order.orderId := by
  unfold isOrderIdUnique OrderQueue.searchById
  have h := searchLoop_true_iff id default oq.q
  cases hr : (searchLoop id default oq.q).1 with
  | true =>
    obtain ⟨o, ho, hid⟩ := h.mp hr
    simp only [Bool.not_true, Bool.false_eq_true, false_iff, not_not]
    exact List.mem_map.mpr ⟨o, ho, hid⟩
  | false =>
    simp only [Bool.not_false, true_iff]
    intro hmem
    obtain ⟨o, ho, hid⟩ := List.mem_map.mp hmem
    have := h.mpr ⟨o, ho, hid⟩
    rw [hr] at this
    cases this

theorem dequeue_cons (front : Order) (rest : List Order) (served : Order) :
    (OrderQueue.mk (front :: rest)).dequeue served = ⟨true, front, ⟨rest⟩⟩ := by
  simp [OrderQueue.dequeue, OrderQueue.isEmpty]

theorem dequeue_nil (served : Order) :
    (OrderQueue.mk []).dequeue served = ⟨false, served, ⟨[]⟩⟩ := by
  simp [OrderQueue.dequeue, OrderQueue.isEmpty]

theorem foldl_enqueue_getAll (l : List Order) (oq : OrderQueue) :
    (l.foldl OrderQueue.enqueue oq).getAll = oq.getAll ++ l := by
  induction l generalizing oq with
  | nil => simp
  | cons x xs ih =>
    rw [List.foldl_cons, ih]
    simp [OrderQueue.enqueue, OrderQueue.getAll]

/-! ## Facts about `sortOrders` -/

theorem sortOrders_perm (S : StdSort) (oq : OrderQueue) (mode : Int) :
    (oq.sortOrders S mode).q.Perm oq.q := by
  unfold OrderQueue.sortOrders
  split
  · exact S.perm _ _ compById_strictWeak
  · split
    · exact S.perm _ _ compByTime_strictWeak
    · exact List.Perm.refl _

theorem sortOrders_byId_sorted (S : StdSort) (oq : OrderQueue) :
    (oq.sortOrders S 1).q.Pairwise (fun a b => a.orderId ≤ b.orderId) := by
  have h := S.sorted compById oq.q compById_strictWeak
  simp only [OrderQueue.sortOrders, if_true]
  refine h.imp ?_
  intro a b hab
  simp only [compById, decide_eq_false_iff_not] at hab
  omega

theorem sortOrders_byTime_sorted (S : StdSort) (oq : OrderQueue) :
    (oq.sortOrders S 2).q.Pairwise (fun a b => a.orderTime ≤ b.orderTime) := by
  have h := S.sorted compByTime oq.q compByTime_strictWeak
  have h2 : (2 : Int) ≠ 1 := by decide
  simp only [OrderQueue.sortOrders, h2, if_false, if_true]
  refine h.imp ?_
  intro a b hab
  simp only [compByTime, decide_eq_false_iff_not] at hab
  omega

/-- A list sorted on a key with pairwise distinct key values is strictly sorted. -/
theorem strict_of_sorted_nodup (k : Order → Int) (l : List Order)
    (hs : l.Pairwise (fun a b => k a ≤ k b)) (hn : (l.map k).Nodup) :
    l.Pairwise (fun a b => k a < k b) := by
  have hne : l.Pairwise (fun a b => k a ≠ k b) := by
    have := hn
    unfold List.Nodup at this
    exact List.pairwise_map.mp this
  refine (hs.and hne).imp ?_
  intro a b hab
  exact lt_of_le_of_ne hab.1 hab.2

/-- A strictly sorted list has pairwise distinct key values. -/
theorem nodup_of_strict (k : Order → Int) (l : List Order)
    (hs : l.Pairwise (fun a b => k a < k b)) : (l.map k).Nodup := by
  unfold List.Nodup
  refine List.pairwise_map.mpr (hs.imp ?_)
  intro a b hab
  exact ne_of_lt hab

/-- Two arrangements of the same orders, both strictly sorted on a key, coincide. -/
theorem eq_of_perm_of_strict (k : Order → Int) (l1 l2 : List Order) (hp : l1.Perm l2)
    (h1 : l1.Pairwise (fun a b => k a < k b)) (h2 : l2.Pairwise (fun a b => k a < k b)) :
    l1 = l2 := by
  haveI : IsAntisymm Order (fun a b => k a < k b) :=
    ⟨fun a b hab hba => absurd (lt_trans hab hba) (lt_irrefl _)⟩
  exact List.eq_of_perm_of_sorted hp h1 h2

/-- Two arrangements of the same orders, both sorted on a key whose values are
pairwise distinct, coincide. -/
theorem eq_of_perm_of_sorted_nodup (k : Order → Int) (l1 l2 : List Order) (hp : l1.Perm l2)
    (h1 : l1.Pairwise (fun a b => k a ≤ k b)) (h2 : l2.Pairwise (fun a b => k a ≤ k b))
    (hn : (l2.map k).Nodup) : l1 = l2 := by
  have hn1 : (l1.map k).Nodup := (hp.map k).nodup_iff.mpr hn
  exact eq_of_perm_of_strict k l1 l2 hp (strict_of_sorted_nodup k l1 h1 hn1)
    (strict_of_sorted_nodup k l2 h2 hn)

/-! ## Facts about the menu loop -/

/-- The four ways an iteration changes the state. -/
theorem step_inv (S : StdSort) (s s2 : State) (a : Action) (h : step S s a = some s2) :
    (∃ id item qty, a = Action.place id item qty ∧ isOrderIdUnique s.orders id = true
        ∧ s.timeCounter < LLONG_MAX
        ∧ s2 = ⟨s.orders.enqueue (mkOrder s id item qty), s.timeCounter + 1⟩)
    ∨ ((∀ id item qty, a ≠ Action.place id item qty) ∧ s2 = s)
    ∨ (a = Action.serve ∧ ∃ front rest, s.orders.q = front :: rest
        ∧ s2 = ⟨⟨rest⟩, s.timeCounter⟩)
    ∨ (∃ mode, a = Action.sort mode ∧ (mode = 1 ∨ mode = 2)
        ∧ s2 = ⟨s.orders.sortOrders S mode, s.timeCounter⟩) := by
  cases a with
  | place id item qty =>
    left
    simp only [step] at h
    split at h
    · rename_i hc
      exact ⟨id, item, qty, rfl, hc.2.2.1, hc.2.2.2.2.2.2, (Option.some.inj h).symm⟩
    · cases h
  | serve =>
    simp only [step] at h
    split at h
    · right; left
      exact ⟨fun _ _ _ hh => Action.noConfusion hh, (Option.some.inj h).symm⟩
    · right; right; left
      refine ⟨rfl, ?_⟩
      obtain ⟨orders, tc⟩ := s
      obtain ⟨q⟩ := orders
      cases q with
      | nil => rename_i hne; simp [OrderQueue.isEmpty] at hne
      | cons front rest =>
        refine ⟨front, rest, rfl, ?_⟩
        rw [← Option.some.inj h]
        simp [dequeue_cons]
  | view =>
    right; left
    simp only [step] at h
    exact ⟨fun _ _ _ hh => Action.noConfusion hh, (Option.some.inj h).symm⟩
  | search id =>
    right; left
    refine ⟨fun _ _ _ hh => Action.noConfusion hh, ?_⟩
    simp only [step] at h
    split at h
    · exact (Option.some.inj h).symm
    · split at h
      · exact (Option.some.inj h).symm
      · cases h
  | sort mode =>
    simp only [step] at h
    split at h
    · right; left
      exact ⟨fun _ _ _ hh => Action.noConfusion hh, (Option.some.inj h).symm⟩
    · split at h
      · rename_i hm
        right; right; right
        refine ⟨mode, rfl, ?_, (Option.some.inj h).symm⟩
        omega
      · cases h

/-- An invariant of every iteration that holds at the start holds after a run. -/
theorem run_invariant (S : StdSort) (P : State → Prop)
    (hstep : ∀ s s2 a, step S s a = some s2 → P s → P s2)
    (acts : List Action) (s s2 : State) (h : run S s acts = some s2) (hs : P s) : P s2 := by
  induction acts generalizing s with
  | nil =>
    simp only [run] at h
    rw [← Option.some.inj h]
    exact hs
  | cons a rest ih =>
    simp only [run] at h
    cases hst : step S s a with
    | none => rw [hst] at h; cases h
    | some s1 =>
      rw [hst] at h
      exact ih s1 h (hstep s s1 a hst hs)

/-- Every iteration keeps the pending ids pairwise distinct. -/
theorem step_nodup_ids (S : StdSort) (s s2 : State) (a : Action)
    (h : step S s a = some s2) (hs : (s.orders.q.map Order.orderId).Nodup) :
    (s2.orders.q.map Order.orderId).Nodup := by
  rcases step_inv S s s2 a h with ⟨id, item, qty, -, hu, -, rfl⟩ | ⟨-, rfl⟩
      | ⟨-, front, rest, hq, rfl⟩ | ⟨mode, -, -, rfl⟩
  · have hnot := (isOrderIdUnique_iff s.orders id).mp hu
    simp only [OrderQueue.enqueue, mkOrder, List.map_append, List.map_cons, List.map_nil]
    refine List.Nodup.append hs (List.nodup_singleton _) ?_
    intro x hx hx2
    rw [List.mem_singleton] at hx2
    subst hx2
    exact hnot hx
  · exact hs
  · rw [hq] at hs
    simp only [List.map_cons] at hs
    exact (List.nodup_cons.mp hs).2
  · exact ((sortOrders_perm S s.orders mode).map Order.orderId).nodup_iff.mpr hs

/-- Every iteration keeps the pending times below the counter. -/
theorem step_times_below (S : StdSort) (s s2 : State) (a : Action)
    (h : step S s a = some s2) (hs : ∀ o ∈ s.orders.q, o.orderTime < s.timeCounter) :
    ∀ o ∈ s2.orders.q, o.orderTime < s2.timeCounter := by
  rcases step_inv S s s2 a h with ⟨id, item, qty, -, -, -, rfl⟩ | ⟨-, rfl⟩
      | ⟨-, front, rest, hq, rfl⟩ | ⟨mode, -, -, rfl⟩
  · intro o ho
    simp only [OrderQueue.enqueue, List.mem_append, List.mem_singleton] at ho
    rcases ho with ho | rfl
    · have := hs o ho
      show o.orderTime < s.timeCounter + 1
      omega
    · show s.timeCounter < s.timeCounter + 1
      omega
  · exact hs
  · intro o ho
    exact hs o (by rw [hq]; exact List.mem_cons_of_mem _ ho)
  · intro o ho
    exact hs o ((sortOrders_perm S s.orders mode).subset ho)

/-- An iteration other than a sort by id keeps a queue that is strictly sorted on
`orderTime`, with all times below the counter, in that shape. -/
theorem step_time_sorted (S : StdSort) (s s2 : State) (a : Action)
    (h : step S s a = some s2) (ha : a ≠ Action.sort 1)
    (hs : s.orders.q.Pairwise (fun x y => x.orderTime < y.orderTime)
      ∧ ∀ o ∈ s.orders.q, o.orderTime < s.timeCounter) :
    s2.orders.q.Pairwise (fun x y => x.orderTime < y.orderTime)
      ∧ ∀ o ∈ s2.orders.q, o.orderTime < s2.timeCounter := by
  refine ⟨?_, step_times_below S s s2 a h hs.2⟩
  rcases step_inv S s s2 a h with ⟨id, item, qty, -, -, -, rfl⟩ | ⟨-, rfl⟩
      | ⟨-, front, rest, hq, rfl⟩ | ⟨mode, rfl, hm, rfl⟩
  · simp only [OrderQueue.enqueue]
    refine List.pairwise_append.mpr ⟨hs.1, List.pairwise_singleton _ _, ?_⟩
    intro x hx y hy
    rw [List.mem_singleton] at hy
    subst hy
    exact hs.2 x hx
  · exact hs.1
  · have := hs.1
    rw [hq] at this
    exact (List.pairwise_cons.mp this).2
  · rcases hm with rfl | rfl
    · exact absurd rfl ha
    · have hp := sortOrders_perm S s.orders 2
      have hn : ((s.orders.sortOrders S 2).q.map Order.orderTime).Nodup :=
        (hp.map Order.orderTime).nodup_iff.mpr (nodup_of_strict Order.orderTime _ hs.1)
      exact strict_of_sorted_nodup Order.orderTime _ (sortOrders_byTime_sorted S s.orders) hn

theorem placedLog_place (S : StdSort) (s s1 : State) (id : Int) (item : String) (qty : Int)
    (rest : List Action) (h : step S s (Action.place id item qty) = some s1) :
    placedLog S s (Action.place id item qty :: rest)
      = mkOrder s id item qty :: placedLog S s1 rest := by
  simp only [placedLog, h]

theorem placedLog_other (S : StdSort) (s s1 : State) (a : Action) (rest : List Action)
    (h : step S s a = some s1) (ha : ∀ id item qty, a ≠ Action.place id item qty) :
    placedLog S s (a :: rest) = placedLog S s1 rest := by
  cases a with
  | place id item qty => exact absurd rfl (ha id item qty)
  | serve => simp only [placedLog, h]
  | view => simp only [placedLog, h]
  | search id => simp only [placedLog, h]
  | sort mode => simp only [placedLog, h]

/-- What a run from any state does to the counter, to the log and to the queue. -/
theorem run_placedLog (S : StdSort) (acts : List Action) (s0 s : State)
    (h : run S s0 acts = some s) :
    s.timeCounter = s0.timeCounter + ((placedLog S s0 acts).length : Int)
    ∧ (∀ (k : Nat) (o : Order), (placedLog S s0 acts)[k]? = some o →
        o.orderTime = s0.timeCounter + (k : Int))
    ∧ (∀ o ∈ s.orders.q, o ∈ s0.orders.q ∨ o ∈ placedLog S s0 acts) := by
  induction acts generalizing s0 with
  | nil =>
    simp only [run] at h
    rw [← Option.some.inj h]
    refine ⟨by simp [placedLog], ?_, fun o ho => Or.inl ho⟩
    intro k o hk
    simp [placedLog] at hk
  | cons a rest ih =>
    simp only [run] at h
    cases hst : step S s0 a with
    | none => rw [hst] at h; cases h
    | some s1 =>
      rw [hst] at h
      obtain ⟨ih1, ih2, ih3⟩ := ih s1 h
      rcases step_inv S s0 s1 a hst with ⟨id, item, qty, rfl, -, -, hs1⟩ | ⟨hnp, hs1⟩
          | ⟨rfl, front, tl, hq, hs1⟩ | ⟨mode, rfl, -, hs1⟩
      · rw [placedLog_place S s0 s1 id item qty rest hst]
        have htc : s1.timeCounter = s0.timeCounter + 1 := by rw [hs1]
        have hq1 : s1.orders.q = s0.orders.q ++ [mkOrder s0 id item qty] := by
          rw [hs1]; rfl
        refine ⟨?_, ?_, ?_⟩
        · rw [ih1, htc, List.length_cons]
          push_cast
          ring
        · intro k o hk
          cases k with
          | zero =>
            simp only [List.getElem?_cons_zero, Option.some.injEq] at hk
            rw [← hk]
            simp [mkOrder]
          | succ n =>
            rw [List.getElem?_cons_succ] at hk
            rw [ih2 n o hk, htc]
            push_cast
            ring
        · intro o ho
          rcases ih3 o ho with h1 | h1
          · rw [hq1, List.mem_append, List.mem_singleton] at h1
            rcases h1 with h1 | h1
            · exact Or.inl h1
            · exact Or.inr (by rw [h1]; exact List.mem_cons_self _ _)
          · exact Or.inr (List.mem_cons_of_mem _ h1)
      · rw [placedLog_other S s0 s1 a rest hst hnp]
        subst hs1
        exact ⟨ih1, ih2, ih3⟩
      · rw [placedLog_other S s0 s1 _ rest hst (fun _ _ _ hh => Action.noConfusion hh)]
        have htc : s1.timeCounter = s0.timeCounter := by rw [hs1]
        have hq1 : s1.orders.q = tl := by rw [hs1]
        refine ⟨by rw [ih1, htc], fun k o hk => by rw [ih2 k o hk, htc], ?_⟩
        intro o ho
        rcases ih3 o ho with h1 | h1
        · rw [hq1] at h1
          exact Or.inl (by rw [hq]; exact List.mem_cons_of_mem _ h1)
        · exact Or.inr h1
      · rw [placedLog_other S s0 s1 _ rest hst (fun _ _ _ hh => Action.noConfusion hh)]
        have htc : s1.timeCounter = s0.timeCounter := by rw [hs1]
        have hq1 : s1.orders.q = (s0.orders.sortOrders S mode).q := by rw [hs1]
        refine ⟨by rw [ih1, htc], fun k o hk => by rw [ih2 k o hk, htc], ?_⟩
        intro o ho
        rcases ih3 o ho with h1 | h1
        · rw [hq1] at h1
          exact Or.inl ((sortOrders_perm S s0.orders mode).subset h1)
        · exact Or.inr h1

/-- A list whose element at index `k` carries time `c + k` has strictly increasing
times. -/
theorem pairwise_time_of_index (c : Int) (l : List Order)
    (h : ∀ (k : Nat) (o : Order), l[k]? = some o → o.orderTime = c + (k : Int)) :
    l.Pairwise (fun a b => a.orderTime < b.orderTime) := by
  rw [List.pairwise_iff_getElem]
  intro i j hi hj hij
  rw [h i l[i] (List.getElem?_eq_getElem hi), h j l[j] (List.getElem?_eq_getElem hj)]
  omega

theorem OrderQueue.eq_of_q (a b : OrderQueue) (h : a.q = b.q) : a = b := by
  cases a
  cases b
  simp only at h
  rw [h]

/-- Sorting by id twice gives the same sequence of ids as sorting once, whatever
the implementation of `std::sort` does with orders of equal id. -/
theorem sortOrders_byId_twice_ids (S : StdSort) (oq : OrderQueue) :
    ((oq.sortOrders S 1).sortOrders S 1).q.map Order.orderId
      = (oq.sortOrders S 1).q.map Order.orderId := by
  have hp := (sortOrders_perm S (oq.sortOrders S 1) 1).map Order.orderId
  have h1 : (((oq.sortOrders S 1).sortOrders S 1).q.map Order.orderId).Sorted (· ≤ ·) :=
    List.pairwise_map.mpr (sortOrders_byId_sorted S (oq.sortOrders S 1))
  have h2 : ((oq.sortOrders S 1).q.map Order.orderId).Sorted (· ≤ ·) :=
    List.pairwise_map.mpr (sortOrders_byId_sorted S oq)
  exact List.eq_of_perm_of_sorted hp h1 h2

/-- With pairwise distinct ids the result of a sort by id does not depend on the
implementation of `std::sort`. -/
theorem sortOrders_byId_unique (S T : StdSort) (oq : OrderQueue)
    (h : (oq.q.map Order.orderId).Nodup) : oq.sortOrders S 1 = oq.sortOrders T 1 := by
  apply OrderQueue.eq_of_q
  have hT := sortOrders_perm T oq 1
  exact eq_of_perm_of_sorted_nodup Order.orderId _ _
    ((sortOrders_perm S oq 1).trans hT.symm)
    (sortOrders_byId_sorted S oq) (sortOrders_byId_sorted T oq)
    ((hT.map Order.orderId).nodup_iff.mpr h)

/-- An invariant of the iterations allowed by `A` holds after a run of such
iterations. -/
theorem run_invariant_of (S : StdSort) (A : Action → Prop) (P : State → Prop)
    (hstep : ∀ s s2 a, A a → step S s a = some s2 → P s → P s2)
    (acts : List Action) (s s2 : State) (hA : ∀ a ∈ acts, A a)
    (h : run S s acts = some s2) (hs : P s) : P s2 := by
  induction acts generalizing s with
  | nil =>
    simp only [run] at h
    rw [← Option.some.inj h]
    exact hs
  | cons a rest ih =>
    simp only [run] at h
    cases hst : step S s a with
    | none => rw [hst] at h; cases h
    | some s1 =>
      rw [hst] at h
      exact ih s1 (fun b hb => hA b (List.mem_cons_of_mem _ hb)) h
        (hstep s s1 a (hA a (List.mem_cons_self _ _)) hst hs)

/-- A run without a Sort by id iteration leaves the queue strictly sorted on
`orderTime`, with all pending times below the counter. -/
theorem run_time_sorted (S : StdSort) (acts : List Action) (s : State)
    (hrun : run S initState acts = some s) (hno : ∀ a ∈ acts, a ≠ Action.sort 1) :
    s.orders.q.Pairwise (fun x y => x.orderTime < y.orderTime)
      ∧ ∀ o ∈ s.orders.q, o.orderTime < s.timeCounter :=
  run_invariant_of S (fun a => a ≠ Action.sort 1)
    (fun st => st.orders.q.Pairwise (fun x y => x.orderTime < y.orderTime)
      ∧ ∀ o ∈ st.orders.q, o.orderTime < st.timeCounter)
    (fun st st2 a ha hst hP => step_time_sorted S st st2 a hst ha hP)
    acts initState s hno hrun (by simp [initState, OrderQueue.empty])

/-- Whatever implementation of `std::sort` is used, placing order 5, then order 3,
then sorting by id leaves bread (stamped 2) in front of soup (stamped 1). -/
theorem sortedSession_any_sort (S : StdSort) :
    run S initState sortedSession = some ⟨⟨[bread, soup]⟩, 3⟩ := by
  have h : run S initState sortedSession
      = some ⟨(OrderQueue.mk [soup, bread]).sortOrders S 1, 3⟩ := rfl
  rw [h, sortOrders_byId_unique S insertionSortImpl ⟨[soup, bread]⟩ (by decide)]
  rfl

/-- Every iteration keeps the pending times pairwise distinct and below the counter. -/
theorem step_times_nodup (S : StdSort) (s s2 : State) (a : Action)
    (h : step S s a = some s2)
    (hs : (s.orders.q.map Order.orderTime).Nodup
      ∧ ∀ o ∈ s.orders.q, o.orderTime < s.timeCounter) :
    (s2.orders.q.map Order.orderTime).Nodup
      ∧ ∀ o ∈ s2.orders.q, o.orderTime < s2.timeCounter := by
  refine ⟨?_, step_times_below S s s2 a h hs.2⟩
  rcases step_inv S s s2 a h with ⟨id, item, qty, -, -, -, rfl⟩ | ⟨-, rfl⟩
      | ⟨-, front, rest, hq, rfl⟩ | ⟨mode, -, -, rfl⟩
  · simp only [OrderQueue.enqueue, mkOrder, List.map_append, List.map_cons, List.map_nil]
    refine List.Nodup.append hs.1 (List.nodup_singleton _) ?_
    intro t ht ht2
    rw [List.mem_singleton] at ht2
    subst ht2
    obtain ⟨o, ho, hot⟩ := List.mem_map.mp ht
    have := hs.2 o ho
    omega
  · exact hs.1
  · have := hs.1
    rw [hq] at this
    simp only [List.map_cons] at this
    exact (List.nodup_cons.mp this).2
  · exact ((sortOrders_perm S s.orders mode).map Order.orderTime).nodup_iff.mpr hs.1

/-- In every reachable state the pending times are pairwise distinct and below the
counter. -/
theorem run_times_nodup (S : StdSort) (acts : List Action) (s : State)
    (hrun : run S initState acts = some s) :
    (s.orders.q.map Order.orderTime).Nodup
      ∧ ∀ o ∈ s.orders.q, o.orderTime < s.timeCounter :=
  run_invariant S
    (fun st => (st.orders.q.map Order.orderTime).Nodup
      ∧ ∀ o ∈ st.orders.q, o.orderTime < st.timeCounter)
    (step_times_nodup S) acts initState s hrun (by simp [initState, OrderQueue.empty])

/-- With pairwise distinct ids the scan of `searchById` gives the same answer on
every arrangement of the same orders. -/
theorem searchLoop_perm (x : Int) (found : Order) (l1 l2 : List Order) (hp : l1.Perm l2)
    (hn : (l1.map Order.orderId).Nodup) :
    searchLoop x found l1 = searchLoop x found l2 := by
  have iff1 := searchLoop_true_iff x found l1
  have iff2 := searchLoop_true_iff x found l2
  cases h1 : (searchLoop x found l1).1 with
  | false =>
    have h2 : (searchLoop x found l2).1 = false := by
      cases h2 : (searchLoop x found l2).1 with
      | false => rfl
      | true =>
        obtain ⟨o, ho, hid⟩ := iff2.mp h2
        have := iff1.mpr ⟨o, hp.symm.subset ho, hid⟩
        rw [h1] at this
        cases this
    exact Prod.ext (h1.trans h2.symm)
      ((searchLoop_false_found x found l1 h1).trans
        (searchLoop_false_found x found l2 h2).symm)
  | true =>
    obtain ⟨o, ho, hid⟩ := iff1.mp h1
    have h2 : (searchLoop x found l2).1 = true := iff2.mpr ⟨o, hp.subset ho, hid⟩
    obtain ⟨pre1, post1, e1, id1, -⟩ := searchLoop_first x found l1 h1
    obtain ⟨pre2, post2, e2, id2, -⟩ := searchLoop_first x found l2 h2
    have hmem : ∀ (l pre post : List Order) (o : Order), l = pre ++ o :: post → o ∈ l := by
      intro l pre post o hl
      rw [hl]
      exact List.mem_append_right pre (List.mem_cons_self o post)
    have m1 : (searchLoop x found l1).2 ∈ l1 := hmem l1 pre1 post1 _ e1
    have m2 : (searchLoop x found l2).2 ∈ l1 := hp.symm.subset (hmem l2 pre2 post2 _ e2)
    exact Prod.ext (h1.trans h2.symm)
      (List.inj_on_of_nodup_map hn m1 m2 (id1.trans id2.symm))

/-- With pairwise distinct times the result of a sort by time does not depend on
the implementation of `std::sort`. -/
theorem sortOrders_byTime_unique (S T : StdSort) (oq : OrderQueue)
    (h : (oq.q.map Order.orderTime).Nodup) : oq.sortOrders S 2 = oq.sortOrders T 2 := by
  apply OrderQueue.eq_of_q
  have hT := sortOrders_perm T oq 2
  exact eq_of_perm_of_sorted_nodup Order.orderTime _ _
    ((sortOrders_perm S oq 2).trans hT.symm)
    (sortOrders_byTime_sorted S oq) (sortOrders_byTime_sorted T oq)
    ((hT.map Order.orderTime).nodup_iff.mpr h)

/-- Once the scan of `searchById` has found an order, orders appended behind do not
change its answer. -/
theorem searchLoop_append (x : Int) (found : Order) (l l2 : List Order)
    (h : (searchLoop x found l).1 = true) :
    searchLoop x found (l ++ l2) = searchLoop x found l := by
  induction l with
  | nil => simp [searchLoop] at h
  | cons y ys ih =>
    rw [List.cons_append]
    unfold searchLoop at h ⊢
    by_cases hy : y.orderId = x
    · rw [if_pos hy, if_pos hy]
    · rw [if_neg hy] at h
      rw [if_neg hy, if_neg hy]
      exact ih h

/-- The pending orders of a reachable state, sorted by time, are the placed orders
that are still pending, in the order of the log. -/
theorem run_sort_byTime_eq_filter (S : StdSort) (acts : List Action) (s : State)
    (hrun : run S initState acts = some s) :
    (s.orders.sortOrders S 2).q
      = (placedLog S initState acts).filter (fun o => decide (o ∈ s.orders.q)) := by
  obtain ⟨-, hidx, hsub⟩ := run_placedLog S acts initState s hrun
  have hlog : (placedLog S initState acts).Pairwise (fun a b => a.orderTime < b.orderTime) :=
    pairwise_time_of_index initState.timeCounter _ hidx
  have hin : ∀ o ∈ s.orders.q, o ∈ placedLog S initState acts := by
    intro o ho
    rcases hsub o ho with hnil | hl
    · simp [initState, OrderQueue.empty] at hnil
    · exact hl
  have hp := sortOrders_perm S s.orders 2
  have hnq := (run_times_nodup S acts s hrun).1
  have hnr : ((s.orders.sortOrders S 2).q.map Order.orderTime).Nodup :=
    (hp.map Order.orderTime).nodup_iff.mpr hnq
  have hstrictR := strict_of_sorted_nodup Order.orderTime _ (sortOrders_byTime_sorted S s.orders) hnr
  have hstrictF := hlog.filter (fun o => decide (o ∈ s.orders.q))
  have hperm : (s.orders.sortOrders S 2).q.Perm
      ((placedLog S initState acts).filter (fun o => decide (o ∈ s.orders.q))) := by
    refine (List.perm_ext_iff_of_nodup (List.Nodup.of_map _ hnr)
      (List.Nodup.of_map _ (nodup_of_strict Order.orderTime _ hstrictF))).mpr ?_
    intro o
    rw [List.mem_filter, decide_eq_true_eq]
    constructor
    · intro ho
      exact ⟨hin o (hp.subset ho), hp.subset ho⟩
    · intro ho
      exact hp.symm.subset ho.2
  exact eq_of_perm_of_strict Order.orderTime _ _ hperm hstrictR hstrictF

/-- On sixteen elements or fewer the sort of GNU libstdc++ is an insertion sort that
moves an element only past greater ones: two orders under one id stay as they are. -/
theorem gnuSort_two_equal :
    gnuSort compById [dupA, dupB] = some [dupA, dupB]
      ∧ (OrderQueue.mk [dupA, dupB]).sortOrders gnuSortImpl 1 = ⟨[dupA, dupB]⟩ := by
  decide

/-- The sort of GNU libstdc++ on soup, bread and tea. -/
theorem gnuSort_sample :
    gnuSort compById [soup, bread, tea] = some [bread, soup, tea]
      ∧ gnuSort compByTime [bread, soup, tea] = some [soup, bread, tea] := by
  decide

/-! ## The properties of the specification -/

/-- C1. Uniqueness invariant: every state the menu loop reaches from the empty queue
by Place Order (guarded by `isOrderIdUnique`), Serve Next, View, Search and Sort
iterations has a pending queue with pairwise distinct `orderId` values, whatever
implementation of `std::sort` is used. -/
theorem uniqueness_invariant (S : StdSort) (acts : List Action) (s : State)
    (h : run S initState acts = some s) :
    s.orders.q.Pairwise (fun a b => a.orderId ≠ b.orderId) := by
  have hn : (s.orders.q.map Order.orderId).Nodup :=
    run_invariant S (fun st => (st.orders.q.map Order.orderId).Nodup) (step_nodup_ids S)
      acts initState s h (by simp [initState, OrderQueue.empty])
  unfold List.Nodup at hn
  exact List.pairwise_map.mp hn

/-- Witness for C1: the sample session runs and ends with ids 5 and 3 pending. -/
theorem uniqueness_invariant_witness :
    run insertionSortImpl initState sampleSession
        = some ⟨⟨[soup, ⟨3, "Tea", 3, 3⟩]⟩, 4⟩
      ∧ [soup, ⟨3, "Tea", 3, 3⟩].Pairwise (fun a b => a.orderId ≠ b.orderId) :=
  ⟨by decide,
    uniqueness_invariant insertionSortImpl sampleSession ⟨⟨[soup, ⟨3, "Tea", 3, 3⟩]⟩, 4⟩
      (by decide)⟩

/-- C2. Search correctness: `searchById x` returns `true` iff some pending order has
`orderId = x`; when it returns `true` the order written to `found` is the first
order of the queue with that id (everything in front of it has another id); when it
returns `false` the variable `found` keeps its value; on the empty queue it returns
`false` for every `x`; and the queue after the call is the queue before it. -/
theorem searchById_correct (oq : OrderQueue) (x : Int) (found : Order) :
    ((oq.searchById x found).ret = true ↔ ∃ o ∈ oq.q, o.orderId = x)
    ∧ ((oq.searchById x found).ret = true →
        ∃ pre post, oq.q = pre ++ (oq.searchById x found).found :: post
          ∧ (oq.searchById x found).found.orderId = x ∧ ∀ o ∈ pre, o.orderId ≠ x)
    ∧ ((oq.searchById x found).ret = false ↔ ∀ o ∈ oq.q, o.orderId ≠ x)
    ∧ ((oq.searchById x found).ret = false → (oq.searchById x found).found = found)
    ∧ (OrderQueue.empty.searchById x found).ret = false
    ∧ (oq.searchById x found).queue = oq := by
  refine ⟨searchLoop_true_iff x found oq.q, searchLoop_first x found oq.q, ?_,
    searchLoop_false_found x found oq.q, rfl, rfl⟩
  have h := searchLoop_true_iff x found oq.q
  show (searchLoop x found oq.q).1 = false ↔ _
  rw [← Bool.not_eq_true, h]
  simp

/-- C3. Dequeue is queue-ordered: on a queue `h :: t` the call returns `true`, writes
exactly `h` to `served` and leaves exactly `t`; so after enqueuing `A`, `B`, `C` on
the empty queue the first `dequeue` returns `A` and the next returns `B`. -/
theorem dequeue_queue_ordered (h : Order) (t : List Order) (served : Order) :
    (OrderQueue.mk (h :: t)).dequeue served = ⟨true, h, ⟨t⟩⟩
    ∧ ∀ A B C s1 s2 : Order,
        (((OrderQueue.empty.enqueue A).enqueue B).enqueue C).dequeue s1 = ⟨true, A, ⟨[B, C]⟩⟩
        ∧ ((((OrderQueue.empty.enqueue A).enqueue B).enqueue C).dequeue s1).queue.dequeue s2
            = ⟨true, B, ⟨[C]⟩⟩ := by
  refine ⟨dequeue_cons h t served, ?_⟩
  intro A B C s1 s2
  have hq : ((OrderQueue.empty.enqueue A).enqueue B).enqueue C = ⟨[A, B, C]⟩ := rfl
  rw [hq, dequeue_cons]
  exact ⟨rfl, dequeue_cons B [C] s2⟩

/-- C4. FCFS default: `getAll` after `enqueue o` is `getAll` before with `o` appended;
hence enqueuing a list of orders one by one on the empty queue makes `getAll` return
exactly that list. -/
theorem enqueue_fcfs (oq : OrderQueue) (o : Order) :
    (oq.enqueue o).getAll = oq.getAll ++ [o]
    ∧ ∀ l : List Order, (l.foldl OrderQueue.enqueue OrderQueue.empty).getAll = l := by
  refine ⟨rfl, ?_⟩
  intro l
  rw [foldl_enqueue_getAll]
  rfl

/-- C5. Sort postcondition: after `sortOrders(1)` the queue is a permutation of the
queue before (the same orders, each with all its fields) in non-decreasing
`orderId`; after `sortOrders(2)` it is a permutation in non-decreasing `orderTime`. -/
theorem sortOrders_postcondition (S : StdSort) (oq : OrderQueue) :
    ((oq.sortOrders S 1).q.Perm oq.q
      ∧ (oq.sortOrders S 1).q.Pairwise (fun a b => a.orderId ≤ b.orderId))
    ∧ ((oq.sortOrders S 2).q.Perm oq.q
      ∧ (oq.sortOrders S 2).q.Pairwise (fun a b => a.orderTime ≤ b.orderTime)) :=
  ⟨⟨sortOrders_perm S oq 1, sortOrders_byId_sorted S oq⟩,
    ⟨sortOrders_perm S oq 2, sortOrders_byTime_sorted S oq⟩⟩

/-- C6. Round-trip sort: on a queue whose orders stand with strictly increasing
`orderTime`, `sortOrders(1)` followed by `sortOrders(2)` gives back exactly the
original queue. -/
theorem sort_round_trip (S : StdSort) (oq : OrderQueue)
    (h : oq.q.Pairwise (fun a b => a.orderTime < b.orderTime)) :
    (oq.sortOrders S 1).sortOrders S 2 = oq := by
  apply OrderQueue.eq_of_q
  have hp : ((oq.sortOrders S 1).sortOrders S 2).q.Perm oq.q :=
    (sortOrders_perm S (oq.sortOrders S 1) 2).trans (sortOrders_perm S oq 1)
  exact eq_of_perm_of_sorted_nodup Order.orderTime _ _ hp
    (sortOrders_byTime_sorted S (oq.sortOrders S 1))
    (h.imp (fun hab => le_of_lt hab)) (nodup_of_strict Order.orderTime oq.q h)

/-- Witness for C6: soup, bread and tea in arrival order. -/
theorem sort_round_trip_witness :
    [soup, bread, tea].Pairwise (fun a b => a.orderTime < b.orderTime)
      ∧ ((OrderQueue.mk [soup, bread, tea]).sortOrders reversingSortImpl 1).sortOrders
          reversingSortImpl 2 = ⟨[soup, bread, tea]⟩ :=
  ⟨by decide, sort_round_trip reversingSortImpl ⟨[soup, bread, tea]⟩ (by decide)⟩

/-- C7, as the code has it: on a queue with pairwise distinct `orderId` values (every
queue the menu loop reaches), calling `sortOrders(1)` twice in a row leaves the same
sequence as calling it once. -/
theorem sort_byId_idempotent (S : StdSort) (oq : OrderQueue)
    (h : (oq.q.map Order.orderId).Nodup) :
    (oq.sortOrders S 1).sortOrders S 1 = oq.sortOrders S 1 := by
  apply OrderQueue.eq_of_q
  have hp := sortOrders_perm S oq 1
  exact eq_of_perm_of_sorted_nodup Order.orderId _ _
    (sortOrders_perm S (oq.sortOrders S 1) 1)
    (sortOrders_byId_sorted S (oq.sortOrders S 1)) (sortOrders_byId_sorted S oq)
    ((hp.map Order.orderId).nodup_iff.mpr h)

/-- Witness for C7: soup, bread and tea have ids 5, 3 and 9. -/
theorem sort_byId_idempotent_witness :
    ([soup, bread, tea].map Order.orderId).Nodup
      ∧ ((OrderQueue.mk [soup, bread, tea]).sortOrders gnuSortImpl 1).sortOrders
          gnuSortImpl 1
        = (OrderQueue.mk [soup, bread, tea]).sortOrders gnuSortImpl 1 :=
  ⟨by decide, sort_byId_idempotent gnuSortImpl ⟨[soup, bread, tea]⟩ (by decide)⟩

set_option maxRecDepth 100000 in
/-- C7 fails as stated: on the queue of seventeen orders under id 1, stamped 1 to 17,
the `std::sort` of GNU libstdc++ takes the partition path (more than 16 elements),
which swaps equal keys. The first `sortOrders(1)` leaves the orders stamped
9, 17, 16, ..., the second leaves 10, 2, 3, ..., so twice is not the same as once. -/
theorem sort_byId_twice_counterexample :
    gnuSort compById seventeen
        = some (sameIdOrders [9, 17, 16, 15, 14, 13, 12, 11, 10, 1, 8, 7, 6, 5, 4, 3, 2])
      ∧ (OrderQueue.mk seventeen).sortOrders gnuSortImpl 1
        = ⟨sameIdOrders [9, 17, 16, 15, 14, 13, 12, 11, 10, 1, 8, 7, 6, 5, 4, 3, 2]⟩
      ∧ ((OrderQueue.mk seventeen).sortOrders gnuSortImpl 1).sortOrders gnuSortImpl 1
        = ⟨sameIdOrders [10, 2, 3, 4, 5, 6, 7, 8, 1, 9, 11, 12, 13, 14, 15, 16, 17]⟩
      ∧ ((OrderQueue.mk seventeen).sortOrders gnuSortImpl 1).sortOrders gnuSortImpl 1
        ≠ (OrderQueue.mk seventeen).sortOrders gnuSortImpl 1 := by
  decide

/-- C8. Monotonic time: the counter starts at 1; a Place Order iteration stamps the
new order with the current counter and then increments it; so in every run of the
menu loop the k-th order handed to `enqueue` (counting from 0 in the log) has
`orderTime = k + 1`, the counter ends one above the number of placed orders, the
times in the log are strictly increasing (none is used twice), every pending order
is an order of the log, and neither `sortOrders` (any mode) nor `dequeue` changes an
order: the first leaves a permutation of the queue, the second its tail. -/
theorem monotonic_time (S : StdSort) (acts : List Action) (s : State)
    (h : run S initState acts = some s) :
    initState.timeCounter = 1
    ∧ (∀ (st st2 : State) (id : Int) (item : String) (qty : Int),
        step S st (Action.place id item qty) = some st2 →
          st2 = ⟨st.orders.enqueue ⟨id, item, qty, st.timeCounter⟩, st.timeCounter + 1⟩)
    ∧ (∀ (k : Nat) (o : Order), (placedLog S initState acts)[k]? = some o →
        o.orderTime = (k : Int) + 1)
    ∧ s.timeCounter = ((placedLog S initState acts).length : Int) + 1
    ∧ (placedLog S initState acts).Pairwise (fun a b => a.orderTime < b.orderTime)
    ∧ (∀ o ∈ s.orders.q, o ∈ placedLog S initState acts)
    ∧ (∀ (oq : OrderQueue) (mode : Int), (oq.sortOrders S mode).q.Perm oq.q)
    ∧ (∀ (oq : OrderQueue) (served : Order), (oq.dequeue served).queue.q = oq.q.tail) := by
  obtain ⟨h1, h2, h3⟩ := run_placedLog S acts initState s h
  have hidx : ∀ (k : Nat) (o : Order), (placedLog S initState acts)[k]? = some o →
      o.orderTime = 1 + (k : Int) := h2
  refine ⟨rfl, ?_, ?_, ?_, pairwise_time_of_index 1 _ hidx, ?_, sortOrders_perm S, ?_⟩
  · intro st st2 id item qty hst
    rcases step_inv S st st2 _ hst with ⟨id2, item2, qty2, ha, -, -, hs2⟩ | ⟨hnp, -⟩
        | ⟨ha, -⟩ | ⟨mode, ha, -⟩
    · cases ha
      exact hs2
    · exact absurd rfl (hnp id item qty)
    · cases ha
    · cases ha
  · intro k o hk
    rw [hidx k o hk]
    ring
  · rw [h1]
    show (1 : Int) + _ = _
    ring
  · intro o ho
    rcases h3 o ho with hnil | hlog
    · simp [initState, OrderQueue.empty] at hnil
    · exact hlog
  · intro oq served
    obtain ⟨q⟩ := oq
    cases q with
    | nil => rw [dequeue_nil]; rfl
    | cons front rest => rw [dequeue_cons]; rfl

/-- Witness for C8: the sample session places three orders, stamped 1, 2 and 3. -/
theorem monotonic_time_witness :
    run insertionSortImpl initState sampleSession
        = some ⟨⟨[soup, ⟨3, "Tea", 3, 3⟩]⟩, 4⟩
      ∧ placedLog insertionSortImpl initState sampleSession
          = [soup, bread, ⟨3, "Tea", 3, 3⟩]
      ∧ (placedLog insertionSortImpl initState sampleSession).Pairwise
          (fun a b => a.orderTime < b.orderTime) :=
  ⟨by decide, by decide,
    (monotonic_time insertionSortImpl sampleSession ⟨⟨[soup, ⟨3, "Tea", 3, 3⟩]⟩, 4⟩
      (by decide)).2.2.2.2.1⟩

/-- C9. Empty-queue signal: `dequeue` returns `false` iff `isEmpty()` is true, which
is iff the queue has zero elements; when it returns `false` the queue is unchanged
and empty and the caller's `served` variable keeps its value. -/
theorem dequeue_empty_signal (oq : OrderQueue) (served : Order) :
    ((oq.dequeue served).ret = false ↔ oq.isEmpty = true)
    ∧ (oq.isEmpty = true ↔ oq.q.length = 0)
    ∧ ((oq.dequeue served).ret = false →
        (oq.dequeue served).queue = oq ∧ (oq.dequeue served).queue.q = []
          ∧ (oq.dequeue served).served = served) := by
  obtain ⟨q⟩ := oq
  cases q with
  | nil =>
    rw [dequeue_nil]
    simp [OrderQueue.isEmpty]
  | cons front rest =>
    rw [dequeue_cons]
    simp [OrderQueue.isEmpty]

/-- C11. Sort by time restores FCFS order: in every state the menu loop reaches, by
any interleaving of Place Order, Serve Next, View, Search and Sort iterations,
`sortOrders(2)` leaves the pending orders in exactly the order in which they were
placed: the result is the log of placed orders with the orders no longer pending
struck out, hence a sublist of the log, and it is a permutation of the queue. -/
theorem sort_byTime_restores_placement (S : StdSort) (acts : List Action) (s : State)
    (hrun : run S initState acts = some s) :
    (s.orders.sortOrders S 2).q
        = (placedLog S initState acts).filter (fun o => decide (o ∈ s.orders.q))
    ∧ (s.orders.sortOrders S 2).q.Sublist (placedLog S initState acts)
    ∧ (s.orders.sortOrders S 2).q.Perm s.orders.q := by
  have h := run_sort_byTime_eq_filter S acts s hrun
  refine ⟨h, ?_, sortOrders_perm S s.orders 2⟩
  rw [h]
  exact List.filter_sublist _

/-- Witness for C11: after the mixed session rice, soup and tea are pending in id
order; sorted by time they stand as placed: soup, tea, rice. -/
theorem sort_byTime_restores_placement_witness :
    run reversingSortImpl initState mixedSession = some ⟨⟨[rice, soup, tea]⟩, 5⟩
      ∧ placedLog reversingSortImpl initState mixedSession = [soup, bread, tea, rice]
      ∧ (OrderQueue.mk [rice, soup, tea]).sortOrders reversingSortImpl 2
          = ⟨[soup, tea, rice]⟩
      ∧ ((OrderQueue.mk [rice, soup, tea]).sortOrders reversingSortImpl 2).q.Sublist
          (placedLog reversingSortImpl initState mixedSession) :=
  ⟨by decide, by decide, by decide,
    (sort_byTime_restores_placement reversingSortImpl mixedSession
      ⟨⟨[rice, soup, tea]⟩, 5⟩ (by decide)).2.1⟩

/-- C12. Id reuse after serving: on a non-empty queue with pairwise distinct ids
`dequeue` succeeds, and afterwards `searchById` on the id of the served order returns
`false`, `isOrderIdUnique` is true for that id, and a Place Order iteration under
that id (with an item, a quantity and a counter the prompts accept) enqueues the new
order. -/
theorem id_reuse_after_serving (oq : OrderQueue) (served found : Order)
    (hne : oq.isEmpty = false) (hn : (oq.q.map Order.orderId).Nodup) :
    (oq.dequeue served).ret = true
    ∧ ((oq.dequeue served).queue.searchById (oq.dequeue served).served.orderId found).ret
        = false
    ∧ isOrderIdUnique (oq.dequeue served).queue (oq.dequeue served).served.orderId = true
    ∧ ∀ (S : StdSort) (tc : Int) (item : String) (qty : Int),
        1 ≤ (oq.dequeue served).served.orderId →
        (oq.dequeue served).served.orderId ≤ 1000000000 →
        item ≠ "" → 1 ≤ qty → qty ≤ 100 → tc < LLONG_MAX →
        step S ⟨(oq.dequeue served).queue, tc⟩
            (Action.place (oq.dequeue served).served.orderId item qty)
          = some ⟨(oq.dequeue served).queue.enqueue
              ⟨(oq.dequeue served).served.orderId, item, qty, tc⟩, tc + 1⟩ := by
  obtain ⟨q⟩ := oq
  cases q with
  | nil => simp [OrderQueue.isEmpty] at hne
  | cons front rest =>
    rw [dequeue_cons]
    simp only [List.map_cons] at hn
    have hnot : front.orderId ∉ rest.map Order.orderId := (List.nodup_cons.mp hn).1
    have huniq : isOrderIdUnique ⟨rest⟩ front.orderId = true :=
      (isOrderIdUnique_iff ⟨rest⟩ front.orderId).mpr hnot
    refine ⟨rfl, ?_, huniq, ?_⟩
    · show (searchLoop front.orderId found rest).1 = false
      cases hr : (searchLoop front.orderId found rest).1 with
      | false => rfl
      | true =>
        obtain ⟨o, ho, hid⟩ := (searchLoop_true_iff front.orderId found rest).mp hr
        exact absurd (List.mem_map.mpr ⟨o, ho, hid⟩) hnot
    · intro S tc item qty h1 h2 h3 h4 h5 h6
      simp only [step, mkOrder]
      rw [if_pos ⟨h1, h2, huniq, h3, h4, h5, h6⟩]

/-- Witness for C12: bread (id 3) is served from the queue bread, soup. -/
theorem id_reuse_after_serving_witness :
    (OrderQueue.mk [bread, soup]).isEmpty = false
      ∧ ([bread, soup].map Order.orderId).Nodup
      ∧ ((OrderQueue.mk [bread, soup]).dequeue default).served = bread
      ∧ isOrderIdUnique ((OrderQueue.mk [bread, soup]).dequeue default).queue
          ((OrderQueue.mk [bread, soup]).dequeue default).served.orderId = true :=
  ⟨by decide, by decide, by decide,
    (id_reuse_after_serving ⟨[bread, soup]⟩ default default (by decide) (by decide)).2.2.1⟩

/-- C13. Unrecognised sort mode is a no-op: for a mode other than 1 and 2
`sortOrders` returns the queue exactly as it was; the method has no failure result. -/
theorem sortOrders_other_mode (S : StdSort) (oq : OrderQueue) (mode : Int)
    (h1 : mode ≠ 1) (h2 : mode ≠ 2) :
    oq.sortOrders S mode = oq ∧ (oq.sortOrders S mode).getAll = oq.getAll := by
  have h : oq.sortOrders S mode = oq := by
    unfold OrderQueue.sortOrders
    rw [if_neg h1, if_neg h2]
  exact ⟨h, by rw [h]⟩

/-- Witness for C13: mode 3 on the queue soup, bread, tea. -/
theorem sortOrders_other_mode_witness :
    (3 : Int) ≠ 1 ∧ (3 : Int) ≠ 2
      ∧ (OrderQueue.mk [soup, bread, tea]).sortOrders reversingSortImpl 3
          = ⟨[soup, bread, tea]⟩ :=
  ⟨by decide, by decide,
    (sortOrders_other_mode reversingSortImpl ⟨[soup, bread, tea]⟩ 3
      (by decide) (by decide)).1⟩

/-- C14. Concrete scenario: enqueuing soup (id 5, time 1), bread (id 3, time 2) and
tea (id 9, time 3) on the empty queue makes `getAll` list the ids 5, 3, 9;
`sortOrders(1)` makes it 3, 5, 9 with every implementation of `std::sort`; the next
`dequeue` returns `true` and the order with id 3, leaving the ids 5, 9. -/
theorem concrete_scenario (S : StdSort) (served : Order) :
    (((OrderQueue.empty.enqueue ⟨5, "Soup", 2, 1⟩).enqueue ⟨3, "Bread", 1, 2⟩).enqueue
        ⟨9, "Tea", 3, 3⟩).getAll.map Order.orderId = [5, 3, 9]
    ∧ ((((OrderQueue.empty.enqueue ⟨5, "Soup", 2, 1⟩).enqueue ⟨3, "Bread", 1, 2⟩).enqueue
        ⟨9, "Tea", 3, 3⟩).sortOrders S 1).getAll.map Order.orderId = [3, 5, 9]
    ∧ (((((OrderQueue.empty.enqueue ⟨5, "Soup", 2, 1⟩).enqueue ⟨3, "Bread", 1, 2⟩).enqueue
        ⟨9, "Tea", 3, 3⟩).sortOrders S 1).dequeue served).ret = true
    ∧ (((((OrderQueue.empty.enqueue ⟨5, "Soup", 2, 1⟩).enqueue ⟨3, "Bread", 1, 2⟩).enqueue
        ⟨9, "Tea", 3, 3⟩).sortOrders S 1).dequeue served).served = ⟨3, "Bread", 1, 2⟩
    ∧ (((((OrderQueue.empty.enqueue ⟨5, "Soup", 2, 1⟩).enqueue ⟨3, "Bread", 1, 2⟩).enqueue
        ⟨9, "Tea", 3, 3⟩).sortOrders S 1).dequeue served).queue.getAll.map Order.orderId
        = [5, 9] := by
  have hq : ((OrderQueue.empty.enqueue ⟨5, "Soup", 2, 1⟩).enqueue ⟨3, "Bread", 1, 2⟩).enqueue
      ⟨9, "Tea", 3, 3⟩ = ⟨[soup, bread, tea]⟩ := rfl
  have hs : (OrderQueue.mk [soup, bread, tea]).sortOrders S 1 = ⟨[bread, soup, tea]⟩ := by
    rw [sortOrders_byId_unique S insertionSortImpl ⟨[soup, bread, tea]⟩ (by decide)]
    decide
  rw [hq, hs, dequeue_cons]
  decide

/-- C15. Arrival order equals ascending `orderTime`: in every state the menu loop
reaches without a Sort Orders iteration (Place Order and Serve Next, also View and
Search, which change nothing), the pending queue has strictly increasing `orderTime`
from head to tail and every pending `orderTime` is below the counter. -/
theorem arrival_order_is_time_order (S : StdSort) (acts : List Action) (s : State)
    (hrun : run S initState acts = some s) (hno : ∀ a ∈ acts, a.isSort = false) :
    s.orders.q.Pairwise (fun a b => a.orderTime < b.orderTime)
    ∧ ∀ o ∈ s.orders.q, o.orderTime < s.timeCounter := by
  refine run_time_sorted S acts s hrun ?_
  intro a ha hsort
  have := hno a ha
  rw [hsort] at this
  cases this

/-- Witness for C15: soup, bread and tea placed, soup served; bread (time 2) and tea
(time 3) are pending and the counter is 4. -/
theorem arrival_order_is_time_order_witness :
    run reversingSortImpl initState plainSession = some ⟨⟨[bread, tea]⟩, 4⟩
      ∧ (∀ a ∈ plainSession, a.isSort = false)
      ∧ [bread, tea].Pairwise (fun a b => a.orderTime < b.orderTime)
      ∧ ∀ o ∈ [bread, tea], o.orderTime < 4 :=
  ⟨by decide, by decide,
    (arrival_order_is_time_order reversingSortImpl plainSession ⟨⟨[bread, tea]⟩, 4⟩
      (by decide) (by decide)).1,
    (arrival_order_is_time_order reversingSortImpl plainSession ⟨⟨[bread, tea]⟩, 4⟩
      (by decide) (by decide)).2⟩

/-- C16. The core never rejects a duplicate id: when the queue already holds an
order with the id of `o`, `enqueue o` still appends `o` (the queue becomes the old
queue followed by `o`, one longer, and its ids are no longer pairwise distinct); a
following `searchById` on that id returns `true` and reports what it reported before
the call, the first order of the old queue with that id, which stands in front of
`o` and differs from `o` whenever `o` is not a copy of a pending order. -/
theorem enqueue_duplicate_id (oq : OrderQueue) (o found : Order)
    (h : ∃ p ∈ oq.q, p.orderId = o.orderId) :
    (oq.enqueue o).q = oq.q ++ [o]
    ∧ (oq.enqueue o).q.length = oq.q.length + 1
    ∧ ¬ ((oq.enqueue o).q.map Order.orderId).Nodup
    ∧ ((oq.enqueue o).searchById o.orderId found).ret = true
    ∧ ((oq.enqueue o).searchById o.orderId found).found
        = (oq.searchById o.orderId found).found
    ∧ (∃ pre post, oq.q = pre ++ ((oq.enqueue o).searchById o.orderId found).found :: post
        ∧ (oq.enqueue o).q
            = pre ++ ((oq.enqueue o).searchById o.orderId found).found :: (post ++ [o])
        ∧ ((oq.enqueue o).searchById o.orderId found).found.orderId = o.orderId
        ∧ ∀ p ∈ pre, p.orderId ≠ o.orderId)
    ∧ (o ∉ oq.q → ((oq.enqueue o).searchById o.orderId found).found ≠ o) := by
  have hret : (searchLoop o.orderId found oq.q).1 = true :=
    (searchLoop_true_iff o.orderId found oq.q).mpr h
  have happ : searchLoop o.orderId found (oq.q ++ [o]) = searchLoop o.orderId found oq.q :=
    searchLoop_append o.orderId found oq.q [o] hret
  have hfound : ((oq.enqueue o).searchById o.orderId found).found
      = (searchLoop o.orderId found oq.q).2 := by
    show (searchLoop o.orderId found (oq.q ++ [o])).2 = _
    rw [happ]
  obtain ⟨pre, post, hq, hid, hpre⟩ := searchLoop_first o.orderId found oq.q hret
  refine ⟨rfl, ?_, ?_, ?_, hfound, ⟨pre, post, ?_, ?_, ?_, hpre⟩, ?_⟩
  · simp [OrderQueue.enqueue]
  · intro hnd
    simp only [OrderQueue.enqueue, List.map_append, List.map_cons, List.map_nil] at hnd
    obtain ⟨p, hp, hpid⟩ := h
    have hdis := (List.nodup_append.mp hnd).2.2
    exact hdis (List.mem_map.mpr ⟨p, hp, hpid⟩) (List.mem_singleton.mpr rfl)
  · show (searchLoop o.orderId found (oq.q ++ [o])).1 = true
    rw [happ]
    exact hret
  · rw [hfound]
    exact hq
  · rw [hfound]
    show oq.q ++ [o] = _
    have : ∀ (l : List Order) (f : Order), l = pre ++ f :: post →
        l ++ [o] = pre ++ f :: (post ++ [o]) := by
      intro l f hl
      rw [hl]
      simp
    exact this oq.q _ hq
  · rw [hfound]
    exact hid
  · intro hnot heq
    rw [hfound] at heq
    have hmem : ∀ (l : List Order) (f : Order), l = pre ++ f :: post → f ∈ l := by
      intro l f hl
      rw [hl]
      exact List.mem_append_right pre (List.mem_cons_self f post)
    have := hmem oq.q _ hq
    rw [heq] at this
    exact hnot this

/-- Witness for C16: order B under id 1 is enqueued behind order A under id 1. -/
theorem enqueue_duplicate_id_witness :
    (∃ p ∈ (OrderQueue.mk [dupA]).q, p.orderId = dupB.orderId)
      ∧ ((OrderQueue.mk [dupA]).enqueue dupB).q = [dupA, dupB]
      ∧ (((OrderQueue.mk [dupA]).enqueue dupB).searchById 1 default).found = dupA
      ∧ (((OrderQueue.mk [dupA]).enqueue dupB).searchById dupB.orderId default).ret = true :=
  ⟨⟨dupA, by decide, by decide⟩, by decide, by decide,
    (enqueue_duplicate_id ⟨[dupA]⟩ dupB default ⟨dupA, by decide, by decide⟩).2.2.2.1⟩

/-- C17. The sorted result does not depend on the sort algorithm or on the incoming
arrangement when keys are distinct: for two queues that are permutations of each
other, with pairwise distinct ids, `sortOrders(1)` with any two implementations of
`std::sort` gives the same sequence, which has strictly increasing ids and is the
only arrangement of these orders that has; likewise for `sortOrders(2)` and
`orderTime` when the times are pairwise distinct. -/
theorem sorted_result_unique (S T : StdSort) (q1 q2 : OrderQueue) (hp : q1.q.Perm q2.q) :
    ((q1.q.map Order.orderId).Nodup →
      q1.sortOrders S 1 = q2.sortOrders T 1
      ∧ (q1.sortOrders S 1).q.Pairwise (fun a b => a.orderId < b.orderId)
      ∧ ∀ l : List Order, l.Perm q1.q → l.Pairwise (fun a b => a.orderId < b.orderId) →
          l = (q1.sortOrders S 1).q)
    ∧ ((q1.q.map Order.orderTime).Nodup →
      q1.sortOrders S 2 = q2.sortOrders T 2
      ∧ (q1.sortOrders S 2).q.Pairwise (fun a b => a.orderTime < b.orderTime)
      ∧ ∀ l : List Order, l.Perm q1.q → l.Pairwise (fun a b => a.orderTime < b.orderTime) →
          l = (q1.sortOrders S 2).q) := by
  constructor
  · intro hn
    have hp1 := sortOrders_perm S q1 1
    have hp2 := sortOrders_perm T q2 1
    have hn1 : ((q1.sortOrders S 1).q.map Order.orderId).Nodup :=
      (hp1.map Order.orderId).nodup_iff.mpr hn
    have hn2 : ((q2.sortOrders T 1).q.map Order.orderId).Nodup :=
      ((hp2.trans hp.symm).map Order.orderId).nodup_iff.mpr hn
    have hstrict := strict_of_sorted_nodup Order.orderId _ (sortOrders_byId_sorted S q1) hn1
    refine ⟨OrderQueue.eq_of_q _ _ ?_, hstrict, ?_⟩
    · exact eq_of_perm_of_sorted_nodup Order.orderId _ _
        ((hp1.trans hp).trans hp2.symm)
        (sortOrders_byId_sorted S q1) (sortOrders_byId_sorted T q2) hn2
    · intro l hl hls
      exact eq_of_perm_of_strict Order.orderId _ _ (hl.trans hp1.symm) hls hstrict
  · intro hn
    have hp1 := sortOrders_perm S q1 2
    have hp2 := sortOrders_perm T q2 2
    have hn1 : ((q1.sortOrders S 2).q.map Order.orderTime).Nodup :=
      (hp1.map Order.orderTime).nodup_iff.mpr hn
    have hn2 : ((q2.sortOrders T 2).q.map Order.orderTime).Nodup :=
      ((hp2.trans hp.symm).map Order.orderTime).nodup_iff.mpr hn
    have hstrict :=
      strict_of_sorted_nodup Order.orderTime _ (sortOrders_byTime_sorted S q1) hn1
    refine ⟨OrderQueue.eq_of_q _ _ ?_, hstrict, ?_⟩
    · exact eq_of_perm_of_sorted_nodup Order.orderTime _ _
        ((hp1.trans hp).trans hp2.symm)
        (sortOrders_byTime_sorted S q1) (sortOrders_byTime_sorted T q2) hn2
    · intro l hl hls
      exact eq_of_perm_of_strict Order.orderTime _ _ (hl.trans hp1.symm) hls hstrict

/-- Witness for C17: soup, bread, tea against tea, soup, bread, sorted by the stable
and by the reversing insertion sort. -/
theorem sorted_result_unique_witness :
    [soup, bread, tea].Perm [tea, soup, bread]
      ∧ ([soup, bread, tea].map Order.orderId).Nodup
      ∧ ([soup, bread, tea].map Order.orderTime).Nodup
      ∧ (OrderQueue.mk [soup, bread, tea]).sortOrders insertionSortImpl 1
          = (OrderQueue.mk [tea, soup, bread]).sortOrders reversingSortImpl 1
      ∧ (OrderQueue.mk [soup, bread, tea]).sortOrders insertionSortImpl 2
          = (OrderQueue.mk [tea, soup, bread]).sortOrders reversingSortImpl 2 :=
  ⟨by decide, by decide, by decide,
    ((sorted_result_unique insertionSortImpl reversingSortImpl ⟨[soup, bread, tea]⟩
      ⟨[tea, soup, bread]⟩ (by decide)).1 (by decide)).1,
    ((sorted_result_unique insertionSortImpl reversingSortImpl ⟨[soup, bread, tea]⟩
      ⟨[tea, soup, bread]⟩ (by decide)).2 (by decide)).1⟩

/-- C18. Search is independent of the arrangement under uniqueness: on a queue with
pairwise distinct ids, for every id and every mode, `searchById` returns the same
`bool` and reports the same order (all fields) before and after `sortOrders`. -/
theorem search_independent_of_sort (S : StdSort) (oq : OrderQueue) (x : Int)
    (found : Order) (mode : Int) (hn : (oq.q.map Order.orderId).Nodup) :
    ((oq.sortOrders S mode).searchById x found).ret = (oq.searchById x found).ret
    ∧ ((oq.sortOrders S mode).searchById x found).found = (oq.searchById x found).found := by
  have h := searchLoop_perm x found oq.q (oq.sortOrders S mode).q
    (sortOrders_perm S oq mode).symm hn
  exact ⟨congrArg Prod.fst h.symm, congrArg Prod.snd h.symm⟩

/-- Witness for C18: searching id 3 in soup, bread, tea before and after a sort by
id. -/
theorem search_independent_of_sort_witness :
    ([soup, bread, tea].map Order.orderId).Nodup
      ∧ (((OrderQueue.mk [soup, bread, tea]).sortOrders reversingSortImpl 1).searchById 3
          default).found = bread
      ∧ (((OrderQueue.mk [soup, bread, tea]).sortOrders reversingSortImpl 1).searchById 3
          default).found = ((OrderQueue.mk [soup, bread, tea]).searchById 3 default).found :=
  ⟨by decide, by decide,
    (search_independent_of_sort reversingSortImpl ⟨[soup, bread, tea]⟩ 3 default 1
      (by decide)).2⟩

end OrderingSystem
